import Mathlib

/-!
Verification of the Feature Aligner, Length Regulator orchestration, prompt
slot mapping and diffusion sampler dispatch of the excerpted NeMo sources.

Tensors are embedded as nested lists; float values as rationals; duration
counts as naturals.  A fallible tensor operation (torch.gather with an
out-of-range index) is embedded through Option: none models the runtime
error raised by the framework.
-/

/-! ## Feature Aligner: average_features (tts/modules/fastpitch.py) -/

/-- torch.cumsum along the last axis for one row of rational values. -/
def cumsumQ (xs : List ℚ) : List ℚ :=
  (List.range xs.length).map (fun i => (xs.take (i + 1)).sum)

/-- torch.cumsum along the last axis for one row of natural numbers. -/
def cumsumN (xs : List ℕ) : List ℕ :=
  (List.range xs.length).map (fun i => (xs.take (i + 1)).sum)

/-- torch.nn.functional.pad with (1, 0): prepend a single zero. -/
def padZero (xs : List ℚ) : List ℚ := 0 :: xs

/-- The numeric value of the boolean tensor (pitch != 0.0) at one cell. -/
def indicator (x : ℚ) : ℚ := if x = 0 then 0 else 1

/-- durs_cums_ends: cumulative end boundaries of the token intervals. -/
def durs_cums_ends (durs : List ℕ) : List ℕ := cumsumN durs

/-- durs_cums_starts: the end boundaries shifted right with a leading zero
(pad of the ends with the last element dropped). -/
def durs_cums_starts (durs : List ℕ) : List ℕ := (0 :: cumsumN durs).dropLast

/-- torch.gather at index e minus torch.gather at index s on a cumulative
array; none models the out-of-range gather error. -/
def gatherDiff (cum : List ℚ) (e s : ℕ) : Option ℚ := do
  let a ← cum[e]?
  let b ← cum[s]?
  pure (a - b)

/-- The (b, c, t) cell of average_features: pitch_sums and pitch_nelems by
gathering the padded cumulative arrays at the interval boundaries, then
torch.where(pitch_nelems == 0.0, pitch_nelems, pitch_sums / pitch_nelems). -/
def tokenAvg (ch : List ℚ) (s e : ℕ) : Option ℚ := do
  let psum ← gatherDiff (padZero (cumsumQ ch)) e s
  let nelems ← gatherDiff (padZero (cumsumQ (ch.map indicator))) e s
  pure (if nelems = 0 then nelems else psum / nelems)

/-- One channel row of average_features over the list of (start, end)
boundary pairs. -/
def avgTokens (ch : List ℚ) : List (ℕ × ℕ) → Option (List ℚ)
  | [] => some []
  | se :: rest => do
      let a ← tokenAvg ch se.1 se.2
      let tl ← avgTokens ch rest
      pure (a :: tl)

/-- One (batch, channel) row of average_features. -/
def avgChannel (ch : List ℚ) (durs : List ℕ) : Option (List ℚ) :=
  avgTokens ch ((durs_cums_starts durs).zip (durs_cums_ends durs))

/-- All channels of one batch element share the duration row (the boundary
tensors are expanded over the formant axis in the source). -/
def avgChannels : List (List ℚ) → List ℕ → Option (List (List ℚ))
  | [], _ => some []
  | ch :: rest, durs => do
      let r ← avgChannel ch durs
      let tl ← avgChannels rest durs
      pure (r :: tl)

/-- average_features(pitch, durs): per-token averaging of a (B, C, F) signal
under a (B, T) duration tensor, giving a (B, C, T) result.  A batch-size
mismatch or an out-of-range gather yields none (a framework error). -/
def average_features : List (List (List ℚ)) → List (List ℕ) → Option (List (List (List ℚ)))
  | [], [] => some []
  | chs :: sb, durs :: db => do
      let row ← avgChannels chs durs
      let rest ← average_features sb db
      pure (row :: rest)
  | _, _ => none

/-! ### Semantic interval notions used to state the claims. -/

/-- The raw signal values of the frame interval [s, e) of a channel row. -/
def intervalSlice (ch : List ℚ) (s e : ℕ) : List ℚ := (ch.drop s).take (e - s)

/-- Number of active (nonzero) frames in the interval [s, e). -/
def activeCount (ch : List ℚ) (s e : ℕ) : ℕ :=
  (intervalSlice ch s e).countP (fun x => decide (x ≠ 0))

/-- Sum of the active (nonzero) values of a list of frames. -/
def activeSum (xs : List ℚ) : ℚ := (xs.filter (fun x => decide (x ≠ 0))).sum

/-- The intended value of one output cell: zero on an interval with no
active frame, otherwise interval value sum over active count. -/
def tokenValue (ch : List ℚ) (s e : ℕ) : ℚ :=
  if activeCount ch s e = 0 then 0
  else (intervalSlice ch s e).sum / (activeCount ch s e : ℚ)

/-- The whole intended output tensor of average_features. -/
def specOut (sb : List (List (List ℚ))) (db : List (List ℕ)) : List (List (List ℚ)) :=
  List.zipWith
    (fun chs drow =>
      chs.map (fun ch =>
        (List.range drow.length).map
          (fun t => tokenValue ch ((drow.take t).sum) ((drow.take (t + 1)).sum))))
    sb db

/-- Boolean shape check: equal batch sizes and every duration row sum at
most every channel length of its batch element. -/
def rowsOkLe (sb : List (List (List ℚ))) (db : List (List ℕ)) : Bool :=
  sb.length == db.length &&
    (sb.zip db).all (fun p => p.1.all (fun ch => p.2.sum ≤ ch.length))

/-- Boolean shape check: equal batch sizes and every duration row sum equal
to every channel length of its batch element (the documented precondition). -/
def rowsOkEq (sb : List (List (List ℚ))) (db : List (List ℕ)) : Bool :=
  sb.length == db.length &&
    (sb.zip db).all (fun p => p.1.all (fun ch => p.2.sum == ch.length))

/-- Indexing helper: row (b, c) of a (B, C, T) nested list. -/
def getRow (out : List (List (List ℚ))) (b c : ℕ) : Option (List ℚ) :=
  out[b]?.bind (fun x => x[c]?)

/-- Indexing helper: cell (b, c, t) of a (B, C, T) nested list. -/
def getVal (out : List (List (List ℚ))) (b c t : ℕ) : Option ℚ :=
  (getRow out b c).bind (fun x => x[t]?)

/-- All signal frames of every channel of every batch element nonzero. -/
def allActive (sb : List (List (List ℚ))) : Bool :=
  sb.all (fun chs => chs.all (fun ch => ch.all (fun x => decide (x ≠ 0))))

/-- The per-token active-frame counts of one (batch, channel) row. -/
def activeCounts (ch : List ℚ) (drow : List ℕ) : List ℕ :=
  (List.range drow.length).map
    (fun t => activeCount ch ((drow.take t).sum) ((drow.take (t + 1)).sum))

/-! ### Helper lemmas on cumulative arrays and boundaries. -/

theorem fa_cumsumQ_getElem (xs : List ℚ) (i : ℕ) (h : i < xs.length) :
    (cumsumQ xs)[i]? = some ((xs.take (i + 1)).sum) := by
  unfold cumsumQ
  rw [List.getElem?_map, List.getElem?_range h, Option.map_some']

theorem fa_padCumsum_getElem (xs : List ℚ) (i : ℕ) (h : i ≤ xs.length) :
    (padZero (cumsumQ xs))[i]? = some ((xs.take i).sum) := by
  cases i with
  | zero => simp [padZero]
  | succ n =>
      have hn : n < xs.length := by omega
      simpa [padZero] using fa_cumsumQ_getElem xs n hn

theorem fa_gatherDiff_eq (xs : List ℚ) (e s : ℕ) (he : e ≤ xs.length) (hs : s ≤ xs.length) :
    gatherDiff (padZero (cumsumQ xs)) e s = some ((xs.take e).sum - (xs.take s).sum) := by
  unfold gatherDiff
  rw [fa_padCumsum_getElem xs e he, fa_padCumsum_getElem xs s hs]
  rfl

theorem fa_take_sum_sub (ch : List ℚ) (s e : ℕ) (h : s ≤ e) :
    (ch.take e).sum - (ch.take s).sum = (intervalSlice ch s e).sum := by
  obtain ⟨d, rfl⟩ : ∃ d, e = s + d := ⟨e - s, by omega⟩
  rw [List.take_add, List.sum_append, intervalSlice, Nat.add_sub_cancel_left]
  ring

theorem fa_slice_map (ch : List ℚ) (f : ℚ → ℚ) (s e : ℕ) :
    intervalSlice (ch.map f) s e = (intervalSlice ch s e).map f := by
  simp [intervalSlice, List.map_take, List.map_drop]

theorem fa_indicator_sum (xs : List ℚ) :
    (xs.map indicator).sum = ((xs.countP (fun x => decide (x ≠ 0)) : ℕ) : ℚ) := by
  induction xs with
  | nil => simp
  | cons x tl ih =>
      by_cases hx : x = 0
      · simp [indicator, hx, List.countP_cons, ih]
      · simp [indicator, hx, List.countP_cons, ih]
        ring

theorem fa_tokenAvg_eq (ch : List ℚ) (s e : ℕ) (hse : s ≤ e) (he : e ≤ ch.length) :
    tokenAvg ch s e = some (tokenValue ch s e) := by
  have hs : s ≤ ch.length := le_trans hse he
  have hlen : (ch.map indicator).length = ch.length := ch.length_map indicator
  unfold tokenAvg
  rw [fa_gatherDiff_eq ch e s he hs,
      fa_gatherDiff_eq (ch.map indicator) e s (by omega) (by omega)]
  have hn : ((ch.map indicator).take e).sum - ((ch.map indicator).take s).sum
      = ((activeCount ch s e : ℕ) : ℚ) := by
    rw [fa_take_sum_sub (ch.map indicator) s e hse, fa_slice_map, fa_indicator_sum,
        activeCount]
  have hv : (ch.take e).sum - (ch.take s).sum = (intervalSlice ch s e).sum :=
    fa_take_sum_sub ch s e hse
  simp only [Option.bind_eq_bind, Option.some_bind, hn, hv, tokenValue]
  by_cases h0 : activeCount ch s e = 0
  · simp [h0]
  · have : ((activeCount ch s e : ℕ) : ℚ) ≠ 0 := by exact_mod_cast h0
    simp [h0, this]

theorem fa_sum_take_le (durs : List ℕ) (t : ℕ) : (durs.take t).sum ≤ durs.sum := by
  conv_rhs => rw [← List.take_append_drop t durs]
  rw [List.sum_append]
  omega

theorem fa_sum_take_mono (durs : List ℕ) (t : ℕ) :
    (durs.take t).sum ≤ (durs.take (t + 1)).sum := by
  rw [List.take_succ, List.sum_append]
  omega

theorem fa_durs_cums_starts_eq (durs : List ℕ) :
    durs_cums_starts durs = (List.range durs.length).map (fun t => (durs.take t).sum) := by
  have h1 : (0 : ℕ) :: cumsumN durs
      = (List.range (durs.length + 1)).map (fun t => (durs.take t).sum) := by
    rw [List.range_succ_eq_map, List.map_cons, List.map_map]
    rfl
  rw [durs_cums_starts, h1, List.range_succ, List.map_append, List.map_singleton,
      List.dropLast_concat]

theorem fa_boundary_pairs (durs : List ℕ) :
    (durs_cums_starts durs).zip (durs_cums_ends durs)
      = (List.range durs.length).map
          (fun t => ((durs.take t).sum, (durs.take (t + 1)).sum)) := by
  rw [fa_durs_cums_starts_eq, durs_cums_ends, cumsumN, List.zip_map']

theorem fa_avgTokens_eq (ch : List ℚ) (ps : List (ℕ × ℕ))
    (h : ∀ p ∈ ps, p.1 ≤ p.2 ∧ p.2 ≤ ch.length) :
    avgTokens ch ps = some (ps.map (fun p => tokenValue ch p.1 p.2)) := by
  induction ps with
  | nil => rfl
  | cons p rest ih =>
      have hp := h p (List.mem_cons_self p rest)
      rw [avgTokens, fa_tokenAvg_eq ch p.1 p.2 hp.1 hp.2,
          ih (fun q hq => h q (List.mem_cons_of_mem p hq))]
      rfl

theorem fa_avgChannel_eq (ch : List ℚ) (durs : List ℕ) (h : durs.sum ≤ ch.length) :
    avgChannel ch durs
      = some ((List.range durs.length).map
          (fun t => tokenValue ch ((durs.take t).sum) ((durs.take (t + 1)).sum))) := by
  rw [avgChannel, fa_boundary_pairs,
      fa_avgTokens_eq ch _ (by
        intro p hp
        obtain ⟨t, _, rfl⟩ := List.mem_map.mp hp
        refine ⟨fa_sum_take_mono durs t, ?_⟩
        exact le_trans (fa_sum_take_le durs (t + 1)) h),
      List.map_map]
  rfl

theorem fa_avgChannels_eq (chs : List (List ℚ)) (durs : List ℕ)
    (h : ∀ ch ∈ chs, durs.sum ≤ ch.length) :
    avgChannels chs durs
      = some (chs.map (fun ch =>
          (List.range durs.length).map
            (fun t => tokenValue ch ((durs.take t).sum) ((durs.take (t + 1)).sum)))) := by
  induction chs with
  | nil => rfl
  | cons ch rest ih =>
      rw [avgChannels, fa_avgChannel_eq ch durs (h ch (List.mem_cons_self ch rest)),
          ih (fun q hq => h q (List.mem_cons_of_mem ch hq))]
      rfl

theorem fa_getElem_zipWith {α β γ : Type} (f : α → β → γ) (l1 : List α) (l2 : List β)
    (i : ℕ) :
    (List.zipWith f l1 l2)[i]? = l1[i]?.bind (fun a => l2[i]?.map (f a)) := by
  induction l1 generalizing l2 i with
  | nil => simp
  | cons a tl ih =>
      cases l2 with
      | nil => simp
      | cons b tl2 =>
          cases i with
          | zero => simp
          | succ n => simpa using ih tl2 n

theorem fa_rowsOkLe_len {sb : List (List (List ℚ))} {db : List (List ℕ)}
    (h : rowsOkLe sb db = true) : sb.length = db.length := by
  have := (Bool.and_eq_true _ _).mp h
  exact beq_iff_eq.mp this.1

theorem fa_rowsOkLe_cons {chs : List (List ℚ)} {durs : List ℕ}
    {sb : List (List (List ℚ))} {db : List (List ℕ)}
    (h : rowsOkLe (chs :: sb) (durs :: db) = true) :
    (∀ ch ∈ chs, durs.sum ≤ ch.length) ∧ rowsOkLe sb db = true := by
  have h' := (Bool.and_eq_true _ _).mp h
  have hlen : sb.length = db.length := by
    have := beq_iff_eq.mp h'.1
    simpa using this
  have hall := List.all_eq_true.mp h'.2
  constructor
  · intro ch hch
    have hmem : (chs, durs) ∈ (chs :: sb).zip (durs :: db) := by
      simp [List.zip_cons_cons]
    have := List.all_eq_true.mp (hall _ hmem) ch hch
    exact of_decide_eq_true this
  · rw [rowsOkLe, Bool.and_eq_true]
    refine ⟨beq_iff_eq.mpr hlen, List.all_eq_true.mpr ?_⟩
    intro p hp
    exact hall p (by simp [List.zip_cons_cons, hp])

theorem fa_rowsOkEq_le {sb : List (List (List ℚ))} {db : List (List ℕ)}
    (h : rowsOkEq sb db = true) : rowsOkLe sb db = true := by
  rw [rowsOkEq, Bool.and_eq_true] at h
  rw [rowsOkLe, Bool.and_eq_true]
  refine ⟨h.1, List.all_eq_true.mpr ?_⟩
  intro p hp
  have hall := List.all_eq_true.mp h.2 p hp
  refine List.all_eq_true.mpr ?_
  intro ch hch
  have := beq_iff_eq.mp (List.all_eq_true.mp hall ch hch)
  simp [this]

theorem fa_rowsOkEq_rows {sb : List (List (List ℚ))} {db : List (List ℕ)}
    (h : rowsOkEq sb db = true) {b : ℕ} {chs : List (List ℚ)} {drow : List ℕ}
    (hb : sb[b]? = some chs) (hd : db[b]? = some drow) :
    ∀ ch ∈ chs, drow.sum = ch.length := by
  rw [rowsOkEq, Bool.and_eq_true] at h
  intro ch hch
  have hmem : (chs, drow) ∈ sb.zip db := by
    have : (sb.zip db)[b]? = some (chs, drow) := by
      rw [List.zip_eq_zipWith, fa_getElem_zipWith, hb, hd]
      rfl
    exact List.getElem?_mem this
  have hall := List.all_eq_true.mp h.2 _ hmem
  exact beq_iff_eq.mp (List.all_eq_true.mp hall ch hch)

/-- Main correctness of the embedding: under in-range duration sums the
gathers succeed and average_features computes exactly the intended
token-value tensor. -/
theorem fa_average_features_eq (sb : List (List (List ℚ))) (db : List (List ℕ))
    (h : rowsOkLe sb db = true) :
    average_features sb db = some (specOut sb db) := by
  induction sb generalizing db with
  | nil =>
      cases db with
      | nil => rfl
      | cons durs db' => simp [rowsOkLe] at h
  | cons chs sb' ih =>
      cases db with
      | nil => simp [rowsOkLe] at h
      | cons durs db' =>
          obtain ⟨hhead, htail⟩ := fa_rowsOkLe_cons h
          rw [average_features, fa_avgChannels_eq chs durs hhead, ih db' htail]
          rfl

theorem fa_specOut_getRow {sb : List (List (List ℚ))} {db : List (List ℕ)}
    {b c : ℕ} {chs : List (List ℚ)} {drow : List ℕ} {ch : List ℚ}
    (hb : sb[b]? = some chs) (hd : db[b]? = some drow) (hc : chs[c]? = some ch) :
    getRow (specOut sb db) b c
      = some ((List.range drow.length).map
          (fun t => tokenValue ch ((drow.take t).sum) ((drow.take (t + 1)).sum))) := by
  rw [getRow, specOut, fa_getElem_zipWith, hb, hd]
  simp only [Option.map_some', Option.some_bind]
  rw [List.getElem?_map, hc]
  rfl

theorem fa_specOut_getVal {sb : List (List (List ℚ))} {db : List (List ℕ)}
    {b c t : ℕ} {chs : List (List ℚ)} {drow : List ℕ} {ch : List ℚ}
    (hb : sb[b]? = some chs) (hd : db[b]? = some drow) (hc : chs[c]? = some ch)
    (ht : t < drow.length) :
    getVal (specOut sb db) b c t
      = some (tokenValue ch ((drow.take t).sum) ((drow.take (t + 1)).sum)) := by
  rw [getVal, fa_specOut_getRow hb hd hc]
  simp only [Option.some_bind]
  rw [List.getElem?_map, List.getElem?_range ht]
  rfl

/-- C1. Aligner zero-interval law: on well-formed inputs (duration rows
summing to each channel frame length) the computation succeeds (in
particular the exact-arithmetic embedding produces a value, never the NaN
of an unguarded 0/0) and every token whose frame interval holds no active
(nonzero) frame gets output average exactly 0. -/
theorem aligner_C1 (sb : List (List (List ℚ))) (db : List (List ℕ))
    (h : rowsOkEq sb db = true) :
    ∃ out, average_features sb db = some out ∧
      ∀ b c t (chs : List (List ℚ)) (drow : List ℕ) (ch : List ℚ),
        sb[b]? = some chs → db[b]? = some drow → chs[c]? = some ch →
        t < drow.length →
        activeCount ch ((drow.take t).sum) ((drow.take (t + 1)).sum) = 0 →
        getVal out b c t = some 0 := by
  refine ⟨specOut sb db, fa_average_features_eq sb db (fa_rowsOkEq_le h), ?_⟩
  intro b c t chs drow ch hb hd hc ht hcount
  rw [fa_specOut_getVal hb hd hc ht, tokenValue, if_pos hcount]

/-- Witness for C1 at signal [[[0, 0, 3]]], durations [[2, 1]]: the first
token interval [0, 2) holds only zero frames, so its average is 0. -/
theorem aligner_C1_witness :
    ∃ out, average_features [[[0, 0, 3]]] [[2, 1]] = some out ∧
      getVal out 0 0 0 = some 0 := by
  obtain ⟨out, hout, hval⟩ := aligner_C1 [[[0, 0, 3]]] [[2, 1]] (by decide)
  exact ⟨out, hout, hval 0 0 0 [[0, 0, 3]] [2, 1] [0, 0, 3] rfl rfl rfl (by decide)
    (by decide)⟩

theorem fa_zipWith_map_same {α β γ δ : Type} (f : β → γ → δ) (g : α → β) (k : α → γ)
    (l : List α) :
    List.zipWith f (l.map g) (l.map k) = l.map (fun x => f (g x) (k x)) := by
  induction l with
  | nil => rfl
  | cons a tl ih => simp [ih]

theorem fa_telescope (g : ℕ → ℚ) (n : ℕ) :
    ((List.range n).map (fun t => g (t + 1) - g t)).sum = g n - g 0 := by
  induction n with
  | zero => simp
  | succ m ih => rw [List.range_succ, List.map_append, List.sum_append, ih]; simp

theorem fa_slice_sum_of_count_zero (ch : List ℚ) (s e : ℕ)
    (h : activeCount ch s e = 0) : (intervalSlice ch s e).sum = 0 := by
  refine List.sum_eq_zero ?_
  intro x hx
  have := (List.countP_eq_zero.mp h) x hx
  simpa using this

theorem fa_tokenValue_mul_count (ch : List ℚ) (s e : ℕ) :
    tokenValue ch s e * (activeCount ch s e : ℚ) = (intervalSlice ch s e).sum := by
  by_cases h0 : activeCount ch s e = 0
  · rw [tokenValue, if_pos h0, fa_slice_sum_of_count_zero ch s e h0, h0]
    simp
  · have hne : ((activeCount ch s e : ℕ) : ℚ) ≠ 0 := by exact_mod_cast h0
    rw [tokenValue, if_neg h0, div_mul_cancel₀ _ hne]

theorem fa_sum_eq_activeSum (xs : List ℚ) : xs.sum = activeSum xs := by
  induction xs with
  | nil => rfl
  | cons x tl ih =>
      rw [List.sum_cons, activeSum, List.filter_cons]
      by_cases hx : x = 0
      · rw [if_neg (by simp [hx]), hx, zero_add, ih]
        rfl
      · rw [if_pos (by simp [hx]), List.sum_cons, ih]
        rfl

/-- C2. Aligner sum invariant: on well-formed inputs, summing average times
active count over the tokens of one (batch, channel) row of the output
recovers the total sum of the active signal values of that row. -/
theorem aligner_C2 (sb : List (List (List ℚ))) (db : List (List ℕ))
    (h : rowsOkEq sb db = true) :
    ∃ out, average_features sb db = some out ∧
      ∀ b c (chs : List (List ℚ)) (drow : List ℕ) (ch : List ℚ) (orow : List ℚ),
        sb[b]? = some chs → db[b]? = some drow → chs[c]? = some ch →
        getRow out b c = some orow →
        (List.zipWith (fun a (n : ℕ) => a * (n : ℚ)) orow (activeCounts ch drow)).sum
          = activeSum ch := by
  refine ⟨specOut sb db, fa_average_features_eq sb db (fa_rowsOkEq_le h), ?_⟩
  intro b c chs drow ch orow hb hd hc hrow
  rw [fa_specOut_getRow hb hd hc] at hrow
  have horow := (Option.some_inj.mp hrow).symm
  subst horow
  rw [activeCounts, fa_zipWith_map_same]
  have hstep : ∀ t ∈ List.range drow.length,
      tokenValue ch ((drow.take t).sum) ((drow.take (t + 1)).sum)
          * ((activeCount ch ((drow.take t).sum) ((drow.take (t + 1)).sum) : ℕ) : ℚ)
        = (ch.take ((drow.take (t + 1)).sum)).sum - (ch.take ((drow.take t).sum)).sum := by
    intro t _
    rw [fa_tokenValue_mul_count,
        ← fa_take_sum_sub ch _ _ (fa_sum_take_mono drow t)]
  rw [List.map_eq_map_iff.mpr hstep]
  have htel := fa_telescope (fun u => (ch.take ((drow.take u).sum)).sum) drow.length
  simp only [] at htel
  rw [htel]
  have hlen : drow.sum = ch.length :=
    fa_rowsOkEq_rows h hb hd ch (List.getElem?_mem hc)
  simp [List.take_length, hlen, fa_sum_eq_activeSum ch]

/-- Witness for C2 at the documented scenario signal [[[0, 2, 0, 4]]],
durations [[2, 2]]: both tokens have one active frame, and
2 * 1 + 4 * 1 = 6 is the total active signal sum. -/
theorem aligner_C2_witness :
    ∃ out, average_features [[[0, 2, 0, 4]]] [[2, 2]] = some out ∧
      ∀ orow, getRow out 0 0 = some orow →
        (List.zipWith (fun a (n : ℕ) => a * (n : ℚ)) orow
            (activeCounts [0, 2, 0, 4] [2, 2])).sum
          = activeSum [0, 2, 0, 4] := by
  obtain ⟨out, hout, hval⟩ := aligner_C2 [[[0, 2, 0, 4]]] [[2, 2]] (by decide)
  exact ⟨out, hout, fun orow horow =>
    hval 0 0 [[0, 2, 0, 4]] [2, 2] [0, 2, 0, 4] orow rfl rfl rfl horow⟩

theorem fa_allActive_mem {sb : List (List (List ℚ))} (hact : allActive sb = true)
    {b c : ℕ} {chs : List (List ℚ)} {ch : List ℚ}
    (hb : sb[b]? = some chs) (hc : chs[c]? = some ch) :
    ∀ x ∈ ch, x ≠ 0 := by
  intro x hx
  have h1 := List.all_eq_true.mp hact chs (List.getElem?_mem hb)
  have h2 := List.all_eq_true.mp h1 ch (List.getElem?_mem hc)
  have h3 := List.all_eq_true.mp h2 x hx
  exact of_decide_eq_true h3

theorem fa_slice_length (ch : List ℚ) (s e : ℕ) (hse : s ≤ e) (he : e ≤ ch.length) :
    (intervalSlice ch s e).length = e - s := by
  rw [intervalSlice, List.length_take, List.length_drop]
  omega

theorem fa_take_sum_succ (drow : List ℕ) (t d : ℕ) (ht : drow[t]? = some d) :
    (drow.take (t + 1)).sum = (drow.take t).sum + d := by
  rw [List.take_succ, List.sum_append, ht]
  rfl

theorem fa_activeCount_full (ch : List ℚ) (s e : ℕ) (hse : s ≤ e) (he : e ≤ ch.length)
    (hact : ∀ x ∈ ch, x ≠ 0) : activeCount ch s e = e - s := by
  rw [activeCount, List.countP_eq_length.mpr, fa_slice_length ch s e hse he]
  intro x hx
  have hmem : x ∈ ch :=
    List.drop_subset s ch (List.take_subset (e - s) (ch.drop s) hx)
  exact decide_eq_true (hact x hmem)

/-- C3. Aligner full-activity reduction: when every frame of the signal is
nonzero, every token of positive duration d gets the plain arithmetic mean
of the raw signal values of its interval (the interval has exactly d
frames, all active). -/
theorem aligner_C3 (sb : List (List (List ℚ))) (db : List (List ℕ))
    (h : rowsOkEq sb db = true) (hact : allActive sb = true) :
    ∃ out, average_features sb db = some out ∧
      ∀ b c t (chs : List (List ℚ)) (drow : List ℕ) (ch : List ℚ) (d : ℕ),
        sb[b]? = some chs → db[b]? = some drow → chs[c]? = some ch →
        drow[t]? = some d → d ≠ 0 →
        (intervalSlice ch ((drow.take t).sum) ((drow.take (t + 1)).sum)).length = d ∧
        getVal out b c t
          = some ((intervalSlice ch ((drow.take t).sum) ((drow.take (t + 1)).sum)).sum
              / (d : ℚ)) := by
  refine ⟨specOut sb db, fa_average_features_eq sb db (fa_rowsOkEq_le h), ?_⟩
  intro b c t chs drow ch d hb hd hc ht hd0
  obtain ⟨htlen, -⟩ := List.getElem?_eq_some.mp ht
  have hsum : drow.sum = ch.length := fa_rowsOkEq_rows h hb hd ch (List.getElem?_mem hc)
  have hsucc := fa_take_sum_succ drow t d ht
  have hse : (drow.take t).sum ≤ (drow.take (t + 1)).sum := fa_sum_take_mono drow t
  have he : (drow.take (t + 1)).sum ≤ ch.length := by
    rw [← hsum]
    exact fa_sum_take_le drow (t + 1)
  have hcount : activeCount ch ((drow.take t).sum) ((drow.take (t + 1)).sum)
      = d := by
    rw [fa_activeCount_full ch _ _ hse he (fa_allActive_mem hact hb hc)]
    omega
  have hslice : (intervalSlice ch ((drow.take t).sum) ((drow.take (t + 1)).sum)).length
      = d := by
    rw [fa_slice_length ch _ _ hse he]
    omega
  refine ⟨hslice, ?_⟩
  rw [fa_specOut_getVal hb hd hc htlen, tokenValue, hcount, if_neg hd0]

/-- Witness for C3 at signal [[[1, 2]]], durations [[2]]: the single token
has interval [0, 2), both frames active, average (1 + 2) / 2. -/
theorem aligner_C3_witness :
    ∃ out, average_features [[[1, 2]]] [[2]] = some out ∧
      (intervalSlice [1, 2] ((List.take 0 [2]).sum) ((List.take 1 [2]).sum)).length = 2 ∧
      getVal out 0 0 0
        = some ((intervalSlice [1, 2] ((List.take 0 [2]).sum)
            ((List.take 1 [2]).sum)).sum / ((2 : ℕ) : ℚ)) := by
  obtain ⟨out, hout, hval⟩ := aligner_C3 [[[1, 2]]] [[2]] (by decide) (by decide)
  obtain ⟨h1, h2⟩ := hval 0 0 0 [[1, 2]] [2] [1, 2] 2 rfl rfl rfl rfl (by decide)
  exact ⟨out, hout, h1, h2⟩

/-- C4 counterexample: at signal [[[1, -1]]] with durations [[2]] (row sum
equal to the frame length) the output average of the single token is
exactly 0 although its interval holds two active (nonzero) frames, so the
claimed equivalence (zero output exactly on empty-active intervals) is
false: nonzero values cancelling leaves a zero average too. -/
theorem aligner_C4_counterexample :
    ¬ (∀ out, average_features [[[1, -1]]] [[2]] = some out →
        ∀ t q, getVal out 0 0 t = some q →
          (q = 0 ↔
            activeCount [1, -1] ((List.take t [2]).sum) ((List.take (t + 1) [2]).sum)
              = 0)) := by
  intro hclaim
  have h1 : average_features [[[1, -1]]] [[2]] = some [[[0]]] := by
    norm_num [average_features, avgChannels, avgChannel, avgTokens, tokenAvg, gatherDiff,
      padZero, cumsumQ, cumsumN, durs_cums_starts, durs_cums_ends, indicator,
      List.range_succ]
  have h2 := (hclaim [[[0]]] h1 0 0 (by decide)).mp rfl
  exact absurd h2 (by decide)

/-- C4 amended: on well-formed inputs the token average is zero if the
interval holds no active frame, and otherwise equals the sum of the active
signal values of the interval divided by the active-frame count; the
converse of the zero case does not hold in general (see the
counterexample), since active values may cancel to a zero average. -/
theorem aligner_C4_amended (sb : List (List (List ℚ))) (db : List (List ℕ))
    (h : rowsOkEq sb db = true) :
    ∃ out, average_features sb db = some out ∧
      ∀ b c t (chs : List (List ℚ)) (drow : List ℕ) (ch : List ℚ),
        sb[b]? = some chs → db[b]? = some drow → chs[c]? = some ch →
        t < drow.length →
        getVal out b c t = some
          (if activeCount ch ((drow.take t).sum) ((drow.take (t + 1)).sum) = 0 then 0
           else activeSum (intervalSlice ch ((drow.take t).sum) ((drow.take (t + 1)).sum))
              / (activeCount ch ((drow.take t).sum) ((drow.take (t + 1)).sum) : ℚ)) := by
  refine ⟨specOut sb db, fa_average_features_eq sb db (fa_rowsOkEq_le h), ?_⟩
  intro b c t chs drow ch hb hd hc ht
  rw [fa_specOut_getVal hb hd hc ht, tokenValue,
      fa_sum_eq_activeSum (intervalSlice ch ((drow.take t).sum) ((drow.take (t + 1)).sum))]

/-- Witness for the amended C4 at signal [[[1, -1]]], durations [[2]]. -/
theorem aligner_C4_amended_witness :
    ∃ out, average_features [[[1, -1]]] [[2]] = some out ∧
      getVal out 0 0 0 = some
        (if activeCount [1, -1] ((List.take 0 [2]).sum) ((List.take 1 [2]).sum) = 0
         then 0
         else activeSum (intervalSlice [1, -1] ((List.take 0 [2]).sum)
            ((List.take 1 [2]).sum))
          / (activeCount [1, -1] ((List.take 0 [2]).sum) ((List.take 1 [2]).sum) : ℚ)) := by
  obtain ⟨out, hout, hval⟩ := aligner_C4_amended [[[1, -1]]] [[2]] (by decide)
  exact ⟨out, hout, hval 0 0 0 [[1, -1]] [2] [1, -1] rfl rfl rfl (by decide)⟩

/-- C5 counterexample: with signal [[[1]]] (frame length 1) and durations
[[2]] (row sum 2 exceeding the frame length) the cumulative end boundary 2
is gathered outside the padded cumulative array of length 2, so the call
raises (none in this embedding) instead of completing with a misaligned
(B, C, T) result. -/
theorem aligner_C5_counterexample : average_features [[[1]]] [[2]] = none := by
  norm_num [average_features, avgChannels, avgChannel, avgTokens, tokenAvg, gatherDiff,
    padZero, cumsumQ, cumsumN, durs_cums_starts, durs_cums_ends, indicator,
    List.range_succ]

/-- C5 amended: average_features completes without raising, with a
(B, C, T)-shaped result, exactly on inputs whose duration row sums stay
within each channel frame length; a row whose sum exceeds the frame length
makes a gather index exceed the cumulative array bound and raises. -/
theorem aligner_C5_amended (sb : List (List (List ℚ))) (db : List (List ℕ))
    (h : rowsOkLe sb db = true) :
    ∃ out, average_features sb db = some out ∧ out.length = sb.length ∧
      ∀ (b : ℕ) (chs : List (List ℚ)) (drow : List ℕ),
        sb[b]? = some chs → db[b]? = some drow →
        ∃ orows : List (List ℚ), out[b]? = some orows ∧ orows.length = chs.length ∧
          ∀ (c : ℕ) (ch : List ℚ), chs[c]? = some ch →
            ∃ orow : List ℚ, orows[c]? = some orow ∧ orow.length = drow.length := by
  refine ⟨specOut sb db, fa_average_features_eq sb db h, ?_, ?_⟩
  · rw [specOut, List.length_zipWith, fa_rowsOkLe_len h, min_self]
  · intro b chs drow hb hd
    refine ⟨chs.map (fun ch =>
        (List.range drow.length).map
          (fun t => tokenValue ch ((drow.take t).sum) ((drow.take (t + 1)).sum))),
      ?_, ?_, ?_⟩
    · rw [specOut, fa_getElem_zipWith, hb, hd]
      rfl
    · rw [List.length_map]
    · intro c ch hc
      refine ⟨(List.range drow.length).map
          (fun t => tokenValue ch ((drow.take t).sum) ((drow.take (t + 1)).sum)),
        ?_, ?_⟩
      · rw [List.getElem?_map, hc]
        rfl
      · rw [List.length_map, List.length_range]

/-- Witness for the amended C5 at signal [[[5]]], durations [[1]]. -/
theorem aligner_C5_amended_witness :
    ∃ out, average_features [[[5]]] [[1]] = some out ∧ out.length = 1 := by
  obtain ⟨out, h1, h2, -⟩ := aligner_C5_amended [[[5]]] [[1]] (by decide)
  exact ⟨out, h1, h2.trans rfl⟩

/-! ## FastPitchModule orchestration (tts/modules/fastpitch.py)

Control-flow skeleton of FastPitchModule.forward and FastPitchModule.infer.
The neural sub-module calls (encoder, predictors, aligner, decoder,
embeddings) are opaque external collaborators abstracted as non-failing;
the skeleton keeps, in source order, exactly the control decisions the
claims are about: the two leading assertions of forward, the reference to
the undefined name prosody_input in the energy-prediction step, and the
duration-source dispatch feeding regulate_len. -/

/-- Python-level error raised by a modelled step. -/
inductive PyErr where
  | nameError (missing : String)
  | valueError (msg : String)
  | typeError (msg : String)
  | assertionError
  | notImplementedError
  deriving DecidableEq

/-- Which duration tensor forward feeds into regulate_len. -/
inductive DurSource where
  | attnHardDur
  | givenDurs
  | predictedDurs
  deriving DecidableEq

/-- The module state relevant to the modelled control flow. -/
structure FPState where
  learn_alignment : Bool
  training : Bool
  hasEnergyPredictor : Bool
  deriving DecidableEq

/-- Which optional arguments a forward call supplies (is not None). -/
structure ForwardInputs where
  specGiven : Bool
  dursGiven : Bool
  pitchGiven : Bool
  energyGiven : Bool
  deriving DecidableEq

/-- Which optional arguments an infer call supplies (is not None). -/
structure InferInputs where
  pitchGiven : Bool
  energyGiven : Bool
  deriving DecidableEq

/-- The error message of the unsupported dispatch branch. -/
def fpUnsupportedMsg : String :=
  "Something unexpected happened when spec is not None and self.learn_alignment is False."

/-- The four-way duration-source dispatch in front of regulate_len:
if self.learn_alignment and spec is not None use the attention-derived
hard durations; elif spec is None and durs is not None use durs; elif
spec is None use the predicted durations; else raise ValueError. -/
def durationSourceDispatch (learn_alignment specGiven dursGiven : Bool) :
    Except PyErr DurSource :=
  if learn_alignment && specGiven then .ok .attnHardDur
  else if !specGiven && dursGiven then .ok .givenDurs
  else if !specGiven then .ok .predictedDurs
  else .error (.valueError fpUnsupportedMsg)

/-- FastPitchModule.forward skeleton: the assertions on durs and pitch when
not learn_alignment and training, then (since prosody_input is bound
nowhere in the function body) a NameError as soon as the energy predictor
is present, then the duration-source dispatch.  The successful result is
the duration source fed to regulate_len. -/
def forwardSkeleton (m : FPState) (inp : ForwardInputs) : Except PyErr DurSource :=
  if !m.learn_alignment && m.training && !inp.dursGiven then .error .assertionError
  else if !m.learn_alignment && m.training && !inp.pitchGiven then .error .assertionError
  else if m.hasEnergyPredictor then .error (.nameError "prosody_input")
  else durationSourceDispatch m.learn_alignment inp.specGiven inp.dursGiven

/-- FastPitchModule.infer skeleton: pitch_predicted is the pitch predictor
output plus the pitch argument, a TypeError when pitch is None; then the
energy step references the undefined name prosody_input only when the
energy predictor is present and no energy argument was given. -/
def inferSkeleton (m : FPState) (inp : InferInputs) : Except PyErr Unit :=
  if !inp.pitchGiven then .error (.typeError "unsupported operand type for +: Tensor and NoneType")
  else if m.hasEnergyPredictor && !inp.energyGiven then .error (.nameError "prosody_input")
  else .ok ()

/-- C6. Duration-source decision table of the acoustic forward pass: the
dispatch in front of regulate_len feeds the attention-derived hard
durations when learn_alignment holds and spec is given, the caller durs
when spec is absent and durs given, the predicted durations when both are
absent, and raises ValueError (no partial result) when spec is given
without learn_alignment. -/
theorem fp_C6 :
    (∀ dg : Bool, durationSourceDispatch true true dg = .ok .attnHardDur) ∧
    (∀ la : Bool, durationSourceDispatch la false true = .ok .givenDurs) ∧
    (∀ la : Bool, durationSourceDispatch la false false = .ok .predictedDurs) ∧
    (∀ dg : Bool,
      durationSourceDispatch false true dg = .error (.valueError fpUnsupportedMsg)) := by
  refine ⟨?_, ?_, ?_, ?_⟩ <;> intro x <;> cases x <;> rfl

/-- C8 counterexample: the claim asserts the unbound-name NameError occurs
in infer whenever the energy predictor is present and energy is None; but
pitch defaults to None in infer, and such a call fails earlier at
pitch_predictor output + pitch (TypeError on Tensor + None), never
reaching the energy step, so no NameError occurs there. -/
theorem fp_C8_counterexample :
    ¬ (∀ (m : FPState) (iinp : InferInputs),
        m.hasEnergyPredictor = true → iinp.energyGiven = false →
        inferSkeleton m iinp = .error (.nameError "prosody_input")) := by
  intro h
  have hne := h ⟨true, false, true⟩ ⟨false, false⟩ rfl rfl
  rw [show inferSkeleton ⟨true, false, true⟩ ⟨false, false⟩
      = .error (.typeError "unsupported operand type for +: Tensor and NoneType")
      from rfl] at hne
  exact PyErr.noConfusion (Except.error.inj hne)

/-- C8 amended. Whenever the energy predictor is present, forward never
completes: it raises (the leading assertions may fire first), and on any
call that reaches the energy-prediction step (the assertions pass) the
error is the NameError on prosody_input; infer hits the same unbound name
whenever the energy predictor is present, energy is absent and pitch is
given: with pitch absent (its default) infer fails earlier with the
TypeError on Tensor + None, before the energy step. -/
theorem fp_C8 (m : FPState) (finp : ForwardInputs) (iinp : InferInputs)
    (hep : m.hasEnergyPredictor = true) :
    (∃ e, forwardSkeleton m finp = .error e) ∧
    ((m.learn_alignment = false → m.training = true →
        finp.dursGiven = true ∧ finp.pitchGiven = true) →
      forwardSkeleton m finp = .error (.nameError "prosody_input")) ∧
    (iinp.pitchGiven = true → iinp.energyGiven = false →
      inferSkeleton m iinp = .error (.nameError "prosody_input")) := by
  obtain ⟨la, tr, ep⟩ := m
  obtain ⟨sg, dg, pg, eg⟩ := finp
  obtain ⟨ipg, ieg⟩ := iinp
  simp only at hep
  subst hep
  refine ⟨?_, ?_, ?_⟩
  · cases la <;> cases tr <;> cases dg <;> cases pg <;>
      exact ⟨_, rfl⟩
  · intro hassert
    cases la
    · cases tr
      · rfl
      · obtain ⟨h1, h2⟩ := hassert rfl rfl
        simp only at h1 h2
        subst h1
        subst h2
        rfl
    · rfl
  · intro h1 h2
    simp only at h1 h2
    subst h1
    subst h2
    rfl

/-- Witness for C8: a module in eval mode with learn_alignment and an
energy predictor, all forward arguments given, infer called with pitch but
no energy. -/
theorem fp_C8_witness :
    forwardSkeleton ⟨true, false, true⟩ ⟨true, true, true, true⟩
        = .error (.nameError "prosody_input") ∧
    inferSkeleton ⟨true, false, true⟩ ⟨true, false⟩
        = .error (.nameError "prosody_input") := by
  have h := fp_C8 ⟨true, false, true⟩ ⟨true, true, true, true⟩ ⟨true, false⟩ rfl
  exact ⟨h.2.1 (fun hla => absurd hla (by decide)), h.2.2 rfl rfl⟩

/-! ## Length Regulator: regulate_len

Modelled from the spec: regulate_len is imported by the acoustic module
from nemo.collections.tts.parts.utils.helpers, a file that is not part of
the excerpted sources; the definitions below follow the specification
text: for each batch row and token emit round(durations[b,t] / pace)
consecutive copies of the token feature vector, concatenate across tokens,
record the true row length, and right-pad every row with zero vectors to
the batch maximum length.  Rounding policy fixed here: round half up. -/

/-- Modelled from the spec: nearest-integer rounding, half rounded up. -/
def roundHalfUp (x : ℚ) : ℤ := ⌊x + 1 / 2⌋

/-- Modelled from the spec: number of frames a token of duration d emits
under pace (a negative rounded value emits nothing). -/
def repCount (d pace : ℚ) : ℕ := (roundHalfUp (d / pace)).toNat

/-- Modelled from the spec: one row expanded token by token. -/
def repRow : List ℚ → List (List ℚ) → ℚ → List (List ℚ)
  | [], _, _ => []
  | _ :: _, [], _ => []
  | d :: ds, f :: fs, pace => List.replicate (repCount d pace) f ++ repRow ds fs pace

/-- Batch maximum of the per-row frame counts. -/
def frameMax (counts : List ℕ) : ℕ := counts.foldr max 0

/-- Modelled from the spec: regulate(durations, features, pace) returns the
zero-padded expanded rows together with the true per-row frame counts;
dim is the feature dimension D used for the zero padding vectors. -/
def regulate_len (durs : List (List ℚ)) (feats : List (List (List ℚ))) (pace : ℚ)
    (dim : ℕ) : List (List (List ℚ)) × List ℕ :=
  let rows := List.zipWith (fun drow frow => repRow drow frow pace) durs feats
  let counts := rows.map List.length
  let fmax := frameMax counts
  (rows.map (fun r => r ++ List.replicate (fmax - r.length) (List.replicate dim 0)), counts)

theorem reg_repRow_length (drow : List ℚ) (frow : List (List ℚ)) (pace : ℚ)
    (h : drow.length = frow.length) :
    (repRow drow frow pace).length = (drow.map (fun d => repCount d pace)).sum := by
  induction drow generalizing frow with
  | nil => simp [repRow]
  | cons d ds ih =>
      cases frow with
      | nil => simp at h
      | cons f fs =>
          have h' : ds.length = fs.length := by simpa using h
          simp [repRow, ih fs h']

theorem reg_le_frameMax (counts : List ℕ) (x : ℕ) (hx : x ∈ counts) :
    x ≤ frameMax counts := by
  induction counts with
  | nil => cases hx
  | cons a tl ih =>
      rcases List.mem_cons.mp hx with h | h
      · subst h
        exact le_max_left _ _
      · exact le_trans (ih h) (le_max_right _ _)

/-- C7. Length Regulator length invariant (spec-modelled): the frame count
of every row equals the sum over its tokens of round(duration / pace),
each token contributes exactly that many consecutive copies of its feature
vector (the repRow concatenation), and the emitted row is the
concatenation right-padded with zero vectors up to the batch maximum
frame count. -/
theorem regulator_C7 (durs : List (List ℚ)) (feats : List (List (List ℚ)))
    (pace : ℚ) (dim : ℕ) (_hpace : 0 < pace) (b : ℕ) (drow : List ℚ)
    (frow : List (List ℚ)) (hd : durs[b]? = some drow) (hf : feats[b]? = some frow)
    (hlen : drow.length = frow.length) :
    (regulate_len durs feats pace dim).2[b]?
        = some ((drow.map (fun d => repCount d pace)).sum) ∧
    ∃ pad, (regulate_len durs feats pace dim).1[b]?
        = some (repRow drow frow pace ++ List.replicate pad (List.replicate dim 0)) ∧
      (repRow drow frow pace).length + pad
        = frameMax ((regulate_len durs feats pace dim).2) := by
  have hrow : (List.zipWith (fun drow frow => repRow drow frow pace) durs feats)[b]?
      = some (repRow drow frow pace) := by
    rw [fa_getElem_zipWith, hd, hf]
    rfl
  have hcount : (regulate_len durs feats pace dim).2[b]?
      = some ((repRow drow frow pace).length) := by
    rw [regulate_len, List.getElem?_map, hrow]
    rfl
  have hmem : (repRow drow frow pace).length ∈ (regulate_len durs feats pace dim).2 :=
    List.getElem?_mem hcount
  refine ⟨?_, ?_⟩
  · rw [hcount, reg_repRow_length drow frow pace hlen]
  · refine ⟨frameMax ((regulate_len durs feats pace dim).2)
        - (repRow drow frow pace).length, ?_, ?_⟩
    · rw [regulate_len, List.getElem?_map, hrow]
      rfl
    · have := reg_le_frameMax _ _ hmem
      omega

/-- Witness for C7 at the documented scenario durations [[3, 0, 1]],
features [[[1, 1], [9, 9], [2, 2]]], pace 1. -/
theorem regulator_C7_witness :
    (regulate_len [[3, 0, 1]] [[[1, 1], [9, 9], [2, 2]]] 1 2).2[0]?
      = some (([3, 0, 1].map (fun d => repCount d 1)).sum) := by
  exact (regulator_C7 [[3, 0, 1]] [[[1, 1], [9, 9], [2, 2]]] 1 2 (by norm_num) 0
    [3, 0, 1] [[1, 1], [9, 9], [2, 2]] rfl rfl rfl).1

/-! ## Canary prompt slot mapping (common/prompts/canary.py)

map_manifest_values_to_special_tokens: strings are embedded as lists of
characters, a Python dict of string slots as a partial map from keys to
values.  The special-token constants CANARY_PNC and CANARY_NOPNC live in
the canary tokenizer module outside the excerpted sources, so they are
carried as parameters; every statement holds for all their values. -/

/-- A Python dict of string slots. -/
def SlotDict : Type := List Char → Option (List Char)

/-- Python str.startswith on character lists. -/
def pyStartsWith (s p : List Char) : Bool := decide (s.take p.length = p)

/-- Python str.endswith on character lists. -/
def pyEndsWith (s p : List Char) : Bool := decide (s.drop (s.length - p.length) = p)

/-- One dict slot assignment d[k] = f(d[k]), applied only when k is
present (the source guards each assignment with k in slot_values). -/
def updateKey (d : SlotDict) (k : List Char) (f : List Char → List Char) : SlotDict :=
  fun q => if q = k then (d k).map f else d q

/-- The language-slot normalization: wrap the value as a special token
unless it already starts with the two characters over < and pipe and ends
with pipe and >. -/
def langFix (v : List Char) : List Char :=
  if pyStartsWith v ['<', '|'] && pyEndsWith v ['|', '>'] then v
  else ['<', '|'] ++ v ++ ['|', '>']

/-- The punctuation slot normalization under the two tokenizer constants. -/
def pncFix (pnc nopnc : List Char) (v : List Char) : List Char :=
  if v = pnc ∨ v = nopnc then v
  else if v = "yes".toList ∨ v = "1".toList ∨ v = "True".toList ∨ v = "true".toList
  then pnc
  else nopnc

/-- The task slot normalization. -/
def taskFix (v : List Char) : List Char :=
  if v = "<|transcribe|>".toList ∨ v = "<|translate|>".toList then v
  else if v = "asr".toList then "<|transcribe|>".toList
  else "<|translate|>".toList

/-- The source language slot key. -/
def sourceLangKey : List Char := "|SOURCE_LANG|".toList

/-- The target language slot key. -/
def targetLangKey : List Char := "|TARGET_LANG|".toList

/-- The punctuation slot key. -/
def pncKey : List Char := "|PNC|".toList

/-- The task slot key. -/
def taskKey : List Char := "|TASK|".toList

/-- map_manifest_values_to_special_tokens on the copied dict: normalize the
source and target language slots, the punctuation slot, the task slot. -/
def map_manifest_values_to_special_tokens (pnc nopnc : List Char) (d : SlotDict) :
    SlotDict :=
  updateKey
    (updateKey
      (updateKey
        (updateKey d sourceLangKey langFix)
        targetLangKey langFix)
      pncKey (pncFix pnc nopnc))
    taskKey taskFix

/-- The observable effect of one Python call: the returned dict together
with the argument dict after the call; the source copies slot_values first
and assigns only into the copy, so the argument is returned unchanged. -/
def map_manifest_call (pnc nopnc : List Char) (d : SlotDict) : SlotDict × SlotDict :=
  (map_manifest_values_to_special_tokens pnc nopnc d, d)

theorem canary_langFix_idem (v : List Char) : langFix (langFix v) = langFix v := by
  by_cases h : (pyStartsWith v ['<', '|'] && pyEndsWith v ['|', '>']) = true
  · have hv : langFix v = v := by rw [langFix, if_pos h]
    rw [hv]
    exact hv
  · have hv : langFix v = ['<', '|'] ++ v ++ ['|', '>'] := by rw [langFix, if_neg h]
    rw [hv]
    have hstart : pyStartsWith (['<', '|'] ++ v ++ ['|', '>']) ['<', '|'] = true := by
      unfold pyStartsWith
      rw [List.append_assoc]
      exact decide_eq_true (List.take_left ['<', '|'] (v ++ ['|', '>']))
    have hend : pyEndsWith (['<', '|'] ++ v ++ ['|', '>']) ['|', '>'] = true := by
      unfold pyEndsWith
      have hl : (['<', '|'] ++ v ++ ['|', '>']).length - (['|', '>'] : List Char).length
          = (['<', '|'] ++ v).length := by
        simp
      rw [hl]
      exact decide_eq_true (List.drop_left (['<', '|'] ++ v) ['|', '>'])
    rw [langFix, hstart, hend]
    rfl

theorem canary_pncFix_idem (pnc nopnc v : List Char) :
    pncFix pnc nopnc (pncFix pnc nopnc v) = pncFix pnc nopnc v := by
  by_cases h1 : v = pnc ∨ v = nopnc
  · have hv : pncFix pnc nopnc v = v := by rw [pncFix, if_pos h1]
    rw [hv]
    exact hv
  · by_cases h2 : v = "yes".toList ∨ v = "1".toList ∨ v = "True".toList ∨ v = "true".toList
    · have hv : pncFix pnc nopnc v = pnc := by rw [pncFix, if_neg h1, if_pos h2]
      rw [hv, pncFix, if_pos (Or.inl rfl)]
    · have hv : pncFix pnc nopnc v = nopnc := by rw [pncFix, if_neg h1, if_neg h2]
      rw [hv, pncFix, if_pos (Or.inr rfl)]

theorem canary_taskFix_idem (v : List Char) : taskFix (taskFix v) = taskFix v := by
  by_cases h1 : v = "<|transcribe|>".toList ∨ v = "<|translate|>".toList
  · have hv : taskFix v = v := by rw [taskFix, if_pos h1]
    rw [hv]
    exact hv
  · by_cases h2 : v = "asr".toList
    · have hv : taskFix v = "<|transcribe|>".toList := by rw [taskFix, if_neg h1, if_pos h2]
      rw [hv, taskFix, if_pos (Or.inl rfl)]
    · have hv : taskFix v = "<|translate|>".toList := by rw [taskFix, if_neg h1, if_neg h2]
      rw [hv, taskFix, if_pos (Or.inr rfl)]

theorem canary_updateKey_ne (d : SlotDict) (k q : List Char) (f : List Char → List Char)
    (h : q ≠ k) : updateKey d k f q = d q := by
  rw [updateKey, if_neg h]

theorem canary_updateKey_eq (d : SlotDict) (k : List Char) (f : List Char → List Char) :
    updateKey d k f k = (d k).map f := by
  rw [updateKey, if_pos rfl]

theorem canary_map_apply (pnc nopnc : List Char) (d : SlotDict) (q : List Char) :
    map_manifest_values_to_special_tokens pnc nopnc d q
      = if q = taskKey then (d q).map taskFix
        else if q = pncKey then (d q).map (pncFix pnc nopnc)
        else if q = targetLangKey ∨ q = sourceLangKey then (d q).map langFix
        else d q := by
  have hts : taskKey ≠ sourceLangKey := by decide
  have htt : taskKey ≠ targetLangKey := by decide
  have htp : taskKey ≠ pncKey := by decide
  have hps : pncKey ≠ sourceLangKey := by decide
  have hpt : pncKey ≠ targetLangKey := by decide
  have hst : targetLangKey ≠ sourceLangKey := by decide
  by_cases h4 : q = taskKey
  · subst h4
    rw [map_manifest_values_to_special_tokens, canary_updateKey_eq,
        canary_updateKey_ne _ _ _ _ htp, canary_updateKey_ne _ _ _ _ htt,
        canary_updateKey_ne _ _ _ _ hts, if_pos rfl]
  · rw [map_manifest_values_to_special_tokens, canary_updateKey_ne _ _ _ _ h4, if_neg h4]
    by_cases h3 : q = pncKey
    · subst h3
      rw [canary_updateKey_eq, canary_updateKey_ne _ _ _ _ hpt,
          canary_updateKey_ne _ _ _ _ hps, if_pos rfl]
    · rw [canary_updateKey_ne _ _ _ _ h3, if_neg h3]
      by_cases h2 : q = targetLangKey
      · subst h2
        rw [canary_updateKey_eq, canary_updateKey_ne _ _ _ _ hst,
            if_pos (Or.inl rfl)]
      · rw [canary_updateKey_ne _ _ _ _ h2]
        by_cases h1 : q = sourceLangKey
        · subst h1
          rw [canary_updateKey_eq, if_pos (Or.inr rfl)]
        · rw [canary_updateKey_ne _ _ _ _ h1,
              if_neg (by intro hor; rcases hor with h | h <;> exact absurd h (by assumption))]

/-- C9. map_manifest_values_to_special_tokens is idempotent, and the call
leaves the argument dictionary unchanged (the source assigns only into
slot_values.copy()); this holds for every value of the two tokenizer
constants CANARY_PNC and CANARY_NOPNC. -/
theorem canary_C9 (pnc nopnc : List Char) (d : SlotDict) :
    map_manifest_values_to_special_tokens pnc nopnc
        (map_manifest_values_to_special_tokens pnc nopnc d)
      = map_manifest_values_to_special_tokens pnc nopnc d
    ∧ (map_manifest_call pnc nopnc d).2 = d := by
  refine ⟨?_, rfl⟩
  funext q
  rw [canary_map_apply, canary_map_apply]
  by_cases h4 : q = taskKey
  · rw [if_pos h4, if_pos h4]
    cases hd : d q with
    | none => rfl
    | some v => simp [canary_taskFix_idem v]
  · rw [if_neg h4, if_neg h4]
    by_cases h3 : q = pncKey
    · rw [if_pos h3, if_pos h3]
      cases hd : d q with
      | none => rfl
      | some v => simp [canary_pncFix_idem pnc nopnc v]
    · rw [if_neg h3, if_neg h3]
      by_cases h2 : q = targetLangKey ∨ q = sourceLangKey
      · rw [if_pos h2, if_pos h2]
        cases hd : d q with
        | none => rfl
        | some v => simp [canary_langFix_idem v]
      · rw [if_neg h2, if_neg h2]

/-! ## SDXL sampler and guider dispatch (stable_diffusion/sdxl_pipeline.py)

get_sampler_config first builds the discretization and guider configs (each
of which can raise) and only then dispatches on the sampler tag; the
constructed sampler carries both configs.  The numeric fields passed
through to the external sampler classes (steps, churn bounds, eta, order)
are opaque and omitted. -/

/-- The configuration fields read by the modelled dispatch. -/
structure SDXLParams where
  sampler : String
  guider : String
  thresholder : String
  discretization : String
  deriving DecidableEq

/-- Result of get_discretization_config. -/
inductive DiscretizationConfig where
  | legacyDDPM
  | edm
  deriving DecidableEq

/-- Result of get_guider_config; VanillaCFG carries its dynamic
thresholding config target. -/
inductive GuiderConfig where
  | identityGuider
  | vanillaCFG (dynThresh : String)
  deriving DecidableEq

/-- Result of get_sampler_config: the chosen sampler class with the two
configs it is constructed from. -/
inductive SamplerConfig where
  | eulerEDM (disc : DiscretizationConfig) (guider : GuiderConfig)
  | heunEDM (disc : DiscretizationConfig) (guider : GuiderConfig)
  | eulerAncestral (disc : DiscretizationConfig) (guider : GuiderConfig)
  | dpmpp2sAncestral (disc : DiscretizationConfig) (guider : GuiderConfig)
  | dpmpp2m (disc : DiscretizationConfig) (guider : GuiderConfig)
  | linearMultistep (disc : DiscretizationConfig) (guider : GuiderConfig)
  deriving DecidableEq

/-- get_guider_config: IdentityGuider, or VanillaCFG with the
NoDynamicThresholding config when the thresholder tag is the string None,
otherwise NotImplementedError. -/
def get_guider_config (p : SDXLParams) : Except PyErr GuiderConfig :=
  if p.guider == "IdentityGuider" then .ok .identityGuider
  else if p.guider == "VanillaCFG" then
    if p.thresholder == "None" then .ok (.vanillaCFG "NoDynamicThresholding")
    else .error .notImplementedError
  else .error .notImplementedError

/-- get_discretization_config: two recognized tags, otherwise ValueError. -/
def get_discretization_config (p : SDXLParams) : Except PyErr DiscretizationConfig :=
  if p.discretization == "LegacyDDPMDiscretization" then .ok .legacyDDPM
  else if p.discretization == "EDMDiscretization" then .ok .edm
  else .error (.valueError ("unknown discretization " ++ p.discretization))

/-- get_sampler_config: build the discretization and guider configs, then
dispatch over the six sampler tags, ValueError naming the tag otherwise. -/
def get_sampler_config (p : SDXLParams) : Except PyErr SamplerConfig :=
  match get_discretization_config p with
  | .error e => .error e
  | .ok disc =>
    match get_guider_config p with
    | .error e => .error e
    | .ok guider =>
      if p.sampler == "EulerEDMSampler" then .ok (.eulerEDM disc guider)
      else if p.sampler == "HeunEDMSampler" then .ok (.heunEDM disc guider)
      else if p.sampler == "EulerAncestralSampler" then .ok (.eulerAncestral disc guider)
      else if p.sampler == "DPMPP2SAncestralSampler" then
        .ok (.dpmpp2sAncestral disc guider)
      else if p.sampler == "DPMPP2MSampler" then .ok (.dpmpp2m disc guider)
      else if p.sampler == "LinearMultistepSampler" then
        .ok (.linearMultistep disc guider)
      else .error (.valueError ("unknown sampler " ++ p.sampler ++ "!"))

/-- The six sampler tags get_sampler_config recognizes. -/
def recognizedSamplers : List String :=
  ["EulerEDMSampler", "HeunEDMSampler", "EulerAncestralSampler",
   "DPMPP2SAncestralSampler", "DPMPP2MSampler", "LinearMultistepSampler"]

/-- Parameters with a recognized sampler tag but an unrecognized guider. -/
def sdxlBadParams : SDXLParams :=
  { sampler := "EulerEDMSampler", guider := "BogusGuider",
    thresholder := "None", discretization := "LegacyDDPMDiscretization" }

/-- C10 counterexample: the sampler tag EulerEDMSampler is recognized, yet
get_sampler_config raises NotImplementedError (from the guider factory it
calls first) instead of returning a sampler, so the claimed equivalence
(a sampler is returned exactly when the sampler tag is recognized) and the
claimed ValueError-only failure mode are both false. -/
theorem sdxl_C10_counterexample :
    sdxlBadParams.sampler ∈ recognizedSamplers ∧
    get_sampler_config sdxlBadParams = .error .notImplementedError ∧
    ∀ s, get_sampler_config sdxlBadParams ≠ .ok s := by
  refine ⟨by decide, rfl, ?_⟩
  intro s h
  rw [show get_sampler_config sdxlBadParams = .error .notImplementedError from rfl] at h
  cases h

/-- C10 amended: provided the discretization and guider factories succeed
(recognized discretization tag, and guider IdentityGuider or VanillaCFG
with thresholder tag None), get_sampler_config returns a constructed
sampler exactly when the sampler tag is one of the six recognized strings
and raises ValueError naming the unknown sampler otherwise; and
get_guider_config raises NotImplementedError on every guider tag other
than IdentityGuider and VanillaCFG. -/
theorem sdxl_C10_amended (p : SDXLParams)
    (hdisc : p.discretization = "LegacyDDPMDiscretization"
      ∨ p.discretization = "EDMDiscretization")
    (hguid : p.guider = "IdentityGuider"
      ∨ (p.guider = "VanillaCFG" ∧ p.thresholder = "None")) :
    ((∃ s, get_sampler_config p = .ok s) ↔ p.sampler ∈ recognizedSamplers) ∧
    (p.sampler ∉ recognizedSamplers →
      get_sampler_config p
        = .error (.valueError ("unknown sampler " ++ p.sampler ++ "!"))) ∧
    (∀ q : SDXLParams, q.guider ≠ "IdentityGuider" → q.guider ≠ "VanillaCFG" →
      get_guider_config q = .error .notImplementedError) := by
  obtain ⟨dc, hdc⟩ : ∃ dc, get_discretization_config p = .ok dc := by
    rcases hdisc with h | h
    · exact ⟨.legacyDDPM, by simp [get_discretization_config, h]⟩
    · exact ⟨.edm, by simp [get_discretization_config, h]⟩
  obtain ⟨gc, hgc⟩ : ∃ gc, get_guider_config p = .ok gc := by
    rcases hguid with h | ⟨h1, h2⟩
    · exact ⟨.identityGuider, by simp [get_guider_config, h]⟩
    · exact ⟨.vanillaCFG "NoDynamicThresholding", by simp [get_guider_config, h1, h2]⟩
  have herr : p.sampler ∉ recognizedSamplers →
      get_sampler_config p
        = .error (.valueError ("unknown sampler " ++ p.sampler ++ "!")) := by
    intro hmem
    simp only [recognizedSamplers, List.mem_cons, List.not_mem_nil, or_false,
      not_or] at hmem
    obtain ⟨h1, h2, h3, h4, h5, h6⟩ := hmem
    simp [get_sampler_config, hdc, hgc, beq_iff_eq, h1, h2, h3, h4, h5, h6]
  refine ⟨⟨?_, ?_⟩, herr, ?_⟩
  · rintro ⟨s, hs⟩
    by_contra hmem
    rw [herr hmem] at hs
    cases hs
  · intro hmem
    simp only [recognizedSamplers, List.mem_cons, List.not_mem_nil, or_false] at hmem
    rcases hmem with h | h | h | h | h | h
    · exact ⟨.eulerEDM dc gc, by simp [get_sampler_config, hdc, hgc, h]⟩
    · exact ⟨.heunEDM dc gc, by simp [get_sampler_config, hdc, hgc, h]⟩
    · exact ⟨.eulerAncestral dc gc, by simp [get_sampler_config, hdc, hgc, h]⟩
    · exact ⟨.dpmpp2sAncestral dc gc, by simp [get_sampler_config, hdc, hgc, h]⟩
    · exact ⟨.dpmpp2m dc gc, by simp [get_sampler_config, hdc, hgc, h]⟩
    · exact ⟨.linearMultistep dc gc, by simp [get_sampler_config, hdc, hgc, h]⟩
  · intro q hq1 hq2
    simp [get_guider_config, beq_iff_eq, hq1, hq2]

/-- Parameters on which every factory succeeds. -/
def sdxlGoodParams : SDXLParams :=
  { sampler := "DPMPP2MSampler", guider := "IdentityGuider",
    thresholder := "None", discretization := "EDMDiscretization" }

/-- Witness for the amended C10: a recognized sampler tag with valid
discretization and guider tags yields a constructed sampler. -/
theorem sdxl_C10_amended_witness :
    ∃ s, get_sampler_config sdxlGoodParams = .ok s :=
  (sdxl_C10_amended sdxlGoodParams (Or.inr rfl) (Or.inl rfl)).1.mpr (by decide)
